import Mathlib

/-!
Verification of the password-strength backend (`src/backend.cpp`, two
variants of the same file).  The C++ is shallowly embedded: `std::string`
becomes `List Char`, machine integers become `Nat`/`Int` (with the C++
truncated `%` written out where it occurs), `for`/`while` loops become
structural recursions (a bounded loop over its index range, an inner
character walk over the list structure, or a fuel counter whose bound is the
loop's iteration count), and the trie's 26-pointer child array becomes an
association list keyed by the computed child index.  The `cctype`
classifiers and `::tolower` are embedded with their C-locale ASCII meaning,
and `std::regex_search` with the fixed pattern `(.)\1{2,}` is embedded as
its ECMAScript meaning: some character other than a line terminator repeated
at least three times consecutively.
-/

/-! ## Strings and characters -/

/-- A C++ `std::string` as a list of characters. -/
abbrev Str := List Char

/-- Indexing `s[i]`; out-of-range reads yield the null character, matching
`std::string::operator[]` at position `size()`. -/
def strGet (s : Str) (i : Nat) : Char := s.getD i (Char.ofNat 0)

/-- The numeric value of a character used in arithmetic (`c - 'a'`,
Rabin-Karp hashing). -/
def charVal (c : Char) : Int := (c.toNat : Int)

/-- The `isupper` classifier from `<cctype>` (C locale, ASCII). -/
def isupperChar (c : Char) : Bool := 'A' ≤ c && c ≤ 'Z'

/-- The `islower` classifier from `<cctype>` (C locale, ASCII). -/
def islowerChar (c : Char) : Bool := 'a' ≤ c && c ≤ 'z'

/-- The `isdigit` classifier from `<cctype>`. -/
def isdigitChar (c : Char) : Bool := '0' ≤ c && c ≤ '9'

/-- The `::tolower` mapping (C locale, ASCII). -/
def tolowerChar (c : Char) : Char :=
  if isupperChar c then Char.ofNat (c.toNat + 32) else c

/-- `transform(lowerPass.begin(), lowerPass.end(), lowerPass.begin(), ::tolower)`. -/
def toLowerStr (s : Str) : Str := s.map tolowerChar

/-! ## The trie (`struct TrieNode`, `class Trie`)

The C++ node holds `TrieNode* children[26]` indexed by `c - 'a'` and a
`bool isEnd`.  The pointer array is embedded as an association list from the
computed integer index to the child node (a missing key is a null pointer);
this keeps the embedded lookup total even at the out-of-range indices the
C++ code computes for non-letter characters (see the safety claim). -/

inductive TrieNode where
  | mk (children : List (Int × TrieNode)) (isEnd : Bool)

/-- Reading `curr->children[idx]`: `none` is a null pointer. -/
def lookupChild : List (Int × TrieNode) → Int → Option TrieNode
  | [], _ => none
  | (j, u) :: rest, i => if j = i then some u else lookupChild rest i

/-- Writing `curr->children[idx] = node`. -/
def setChild : List (Int × TrieNode) → Int → TrieNode → List (Int × TrieNode)
  | [], i, v => [(i, v)]
  | (j, u) :: rest, i, v =>
    if j = i then (i, v) :: rest else (j, u) :: setChild rest i v

/-- A freshly constructed `TrieNode()`. -/
def emptyTrieNode : TrieNode := .mk [] false

/-- The child index `int idx = c - 'a';` computed by `insert` and `search`. -/
def trieIdx (c : Char) : Int := charVal c - 97

/-- `Trie::insert`, walking the word and allocating missing children. -/
def TrieNode.insert : TrieNode → Str → TrieNode
  | .mk ch _, [] => .mk ch true
  | .mk ch e, c :: cs =>
    match lookupChild ch (trieIdx c) with
    | some child => .mk (setChild ch (trieIdx c) (child.insert cs)) e
    | none => .mk (setChild ch (trieIdx c) (emptyTrieNode.insert cs)) e

/-- `Trie::search`, returning `curr->isEnd` at the end of the walk. -/
def TrieNode.search : TrieNode → Str → Bool
  | .mk _ e, [] => e
  | .mk ch _, c :: cs =>
    match lookupChild ch (trieIdx c) with
    | some child => child.search cs
    | none => false

/-- The fixed dictionary `weakPatterns` of `analyzePassword` (both variants
build the same vector). -/
def weakPatterns : List Str :=
  ["password".toList, "admin".toList, "qwerty".toList, "1234".toList, "1111".toList]

/-- The trie after `for (w : weakPatterns) trie.insert(w);`. -/
def weakTrie : TrieNode := weakPatterns.foldl TrieNode.insert emptyTrieNode

/-! ## Brute-force matcher (`bruteForceMatch`, second variant)

The outer `for (int i = 0; i <= n - m; i++)` is embedded as iteration over
its index range (empty when `m > n`, as the `int` subtraction makes the bound
negative); the inner `while (j < m && text[i+j] == pattern[j]) j++` compares
`text` from offset `i` against `pattern` position by position, embedded as a
parallel walk of `text.drop i` and `pattern`. -/

/-- The inner comparison loop: `true` iff `j` reaches `pattern.length`. -/
def matchAt : Str → Str → Bool
  | _, [] => true
  | [], _ :: _ => false
  | c :: cs, d :: ds => c = d && matchAt cs ds

/-- `bruteForceMatch(text, pattern)`. -/
def bruteForceMatch (text pattern : Str) : Bool :=
  if pattern.length > text.length then false
  else (List.range (text.length - pattern.length + 1)).any
    (fun i => matchAt (text.drop i) pattern)

/-! ## KMP matcher (`computeLPS`, `KMPMatch`, second variant)

Both loops are embedded with an explicit fuel counter (the loops are not
structurally recursive: `len = lps[len - 1]` and `j = lps[j - 1]` jump
backwards).  The fuel is an upper bound on the iteration count, proved
sufficient in the correctness lemmas; an exhausted fuel returns the current
state, which the lemmas show is never reached. -/

/-- One state of `computeLPS`'s loop `for (int i = 1, len = 0; i < m;)`. -/
def lpsAuxF (p : Str) : List Nat → Nat → Nat → Nat → List Nat
  | lps, _, _, 0 => lps
  | lps, i, len, fuel+1 =>
    if i < p.length then
      if strGet p i = strGet p len then
        lpsAuxF p (lps.set i (len+1)) (i+1) (len+1) fuel
      else if len ≠ 0 then
        lpsAuxF p lps i (lps.getD (len-1) 0) fuel
      else
        lpsAuxF p (lps.set i 0) (i+1) 0 fuel
    else lps

/-- `computeLPS(pattern)`: the failure table, starting from `vector<int> lps(m, 0)`. -/
def computeLPS (p : Str) : List Nat :=
  lpsAuxF p (List.replicate p.length 0) 1 0 (2 * p.length + 1)

/-- One iteration of `KMPMatch`'s `while (i < text.length())` loop.  After a
character match both indices advance before the `j == m` test and the
mismatch test, exactly as in the source. -/
def kmpLoopF (t p : Str) (lps : List Nat) : Nat → Nat → Nat → Bool
  | _, _, 0 => false
  | i, j, fuel+1 =>
    if i < t.length then
      if strGet t i = strGet p j then
        if j + 1 = p.length then true
        else if i + 1 < t.length ∧ strGet t (i+1) ≠ strGet p (j+1) then
          if j + 1 ≠ 0 then kmpLoopF t p lps (i+1) (lps.getD (j+1-1) 0) fuel
          else kmpLoopF t p lps (i+1+1) (j+1) fuel
        else kmpLoopF t p lps (i+1) (j+1) fuel
      else
        if j = p.length then true
        else if i < t.length ∧ strGet t i ≠ strGet p j then
          if j ≠ 0 then kmpLoopF t p lps i (lps.getD (j-1) 0) fuel
          else kmpLoopF t p lps (i+1) j fuel
        else kmpLoopF t p lps i j fuel
    else false

/-- `KMPMatch(text, pattern)`. -/
def KMPMatch (text pattern : Str) : Bool :=
  kmpLoopF text pattern (computeLPS pattern) 0 0 (2 * text.length + 1)

/-! ## Rabin-Karp matcher (`rabinKarpMatch`, first variant)

`base = 256`, `mod = 101`; the C++ `%` on `int` truncates toward zero, so it
is embedded as `Int.tmod`, and the source's `if (tHash < 0) tHash += mod`
follows the rolling update.  `int` arithmetic does not overflow here for
byte-valued characters, so unbounded `Int` is faithful. -/

/-- The C++ `x % 101` followed by the source's negative fix-up. -/
def cppMod101 (x : Int) : Int :=
  let v := x.tmod 101
  if v < 0 then v + 101 else v

/-- `h` after `for (int i = 0; i < m - 1; i++) h = (h * base) % mod;`
as a function of the iteration count. -/
def rkH : Nat → Int
  | 0 => 1
  | k+1 => (rkH k * 256).tmod 101

/-- The initial hash loop `hash = (base * hash + s[k]) % mod` over the first
`k` characters of `s`. -/
def rkHashAux (s : Str) : Nat → Int
  | 0 => 0
  | k+1 => (256 * rkHashAux s k + charVal (strGet s k)).tmod 101

/-- The rolling update
`tHash = (base * (tHash - text[i] * h) + text[i + m]) % mod;` with the
negative fix-up. -/
def rkUpdate (t : Str) (m : Nat) (h tHash : Int) (i : Nat) : Int :=
  cppMod101 (256 * (tHash - charVal (strGet t i) * h) + charVal (strGet t (i + m)))

/-- The loop `for (int i = 0; i <= n - m; i++)` of `rabinKarpMatch`: compare
hashes, verify with `text.substr(i, m) == pattern`, and roll the hash while
`i < n - m`.  The fuel is the remaining iteration count. -/
def rkLoopF (t p : Str) (pHash h : Int) : Int → Nat → Nat → Bool
  | _, _, 0 => false
  | tHash, i, fuel+1 =>
    if pHash = tHash ∧ (t.drop i).take p.length = p then true
    else if i < t.length - p.length then
      rkLoopF t p pHash h (rkUpdate t p.length h tHash i) (i+1) fuel
    else false

/-- `rabinKarpMatch(text, pattern)`. -/
def rabinKarpMatch (text pattern : Str) : Bool :=
  if pattern.length > text.length then false
  else rkLoopF text pattern (rkHashAux pattern pattern.length)
    (rkH (pattern.length - 1)) (rkHashAux text pattern.length) 0
    (text.length - pattern.length + 1)

/-! ## The password analyzer (`analyzePassword`, both variants)

The single C++ function is factored into the running score, the accumulated
suggestion string and the final classification; the score and suggestion
accumulators mirror the source's sequential updates step by step.  Variant 1
is the file using `rabinKarpMatch`, variant 2 the file using
`bruteForceMatch` and `KMPMatch`. -/

/-- One step of the character-variety loop: the `if/else if` chain sets one
of the four flags (upper, lower, digit, symbol) per character. -/
def charFlagsStep (f : Bool × Bool × Bool × Bool) (c : Char) : Bool × Bool × Bool × Bool :=
  if isupperChar c then (true, f.2.1, f.2.2.1, f.2.2.2)
  else if islowerChar c then (f.1, true, f.2.2.1, f.2.2.2)
  else if isdigitChar c then (f.1, f.2.1, true, f.2.2.2)
  else (f.1, f.2.1, f.2.2.1, true)

/-- The flags `(upper, lower, digit, symbol)` after the loop over the password. -/
def charFlags (pass : Str) : Bool × Bool × Bool × Bool :=
  pass.foldl charFlagsStep (false, false, false, false)

/-- A character the ECMAScript regex `.` matches (anything but a line
terminator). -/
def regexDotChar (c : Char) : Bool := c ≠ Char.ofNat 10 && c ≠ Char.ofNat 13

/-- `regex_search(pass, regex("(.)\1{2,}"))`: some non-line-terminator
character occurs at least three times consecutively. -/
def hasRepeat : Str → Bool
  | c1 :: c2 :: c3 :: rest =>
    (regexDotChar c1 && (c2 = c1 && c3 = c1)) || hasRepeat (c2 :: c3 :: rest)
  | _ => false

/-- Variant 1's weak-pattern loop: `rabinKarpMatch(lowerPass, pattern) ||
trie.search(pattern)`, stopping at the first hit. -/
def hasWeakPattern1 (lowerPass : Str) : Bool :=
  weakPatterns.any (fun pattern => rabinKarpMatch lowerPass pattern || weakTrie.search pattern)

/-- Variant 2's weak-pattern loop: `trie.search(pattern) ||
bruteForceMatch(lowerPass, pattern) || KMPMatch(lowerPass, pattern)`. -/
def hasWeakPattern2 (lowerPass : Str) : Bool :=
  weakPatterns.any (fun pattern =>
    weakTrie.search pattern || bruteForceMatch lowerPass pattern || KMPMatch lowerPass pattern)

/-- The running `score` of variant 1's `analyzePassword`, update by update. -/
def analyzeScore1 (pass : Str) : Nat :=
  let score0 : Nat := 0
  let score1 := if pass.length ≥ 12 then score0 + 2
    else if pass.length ≥ 8 then score0 + 1 else score0
  let f := charFlags pass
  let score2 := if f.1 then score1 + 1 else score1
  let score3 := if f.2.1 then score2 + 1 else score2
  let score4 := if f.2.2.1 then score3 + 1 else score3
  let score5 := if f.2.2.2 then score4 + 1 else score4
  let score6 := if hasRepeat pass then score5 else score5 + 1
  let score7 := if hasWeakPattern1 (toLowerStr pass) then score6 else score6 + 1
  score7

/-- The accumulated `suggestion` string of variant 1, append by append. -/
def analyzeSuggestion1 (pass : Str) : String :=
  let sug0 : String := ""
  let sug1 := if pass.length ≥ 12 then sug0
    else if pass.length ≥ 8 then sug0 else sug0 ++ "Use at least 8 characters. "
  let f := charFlags pass
  let sug2 := if f.1 then sug1 else sug1 ++ "Add uppercase letters. "
  let sug3 := if f.2.1 then sug2 else sug2 ++ "Add lowercase letters. "
  let sug4 := if f.2.2.1 then sug3 else sug3 ++ "Add digits. "
  let sug5 := if f.2.2.2 then sug4 else sug4 ++ "Add special symbols. "
  let sug6 := if hasRepeat pass then sug5 ++ "Avoid repeated characters. " else sug5
  let sug7 := if hasWeakPattern1 (toLowerStr pass) then
    sug6 ++ "Avoid common weak patterns like '1234' or 'password'. " else sug6
  sug7

/-- The running `score` of variant 2's `analyzePassword`. -/
def analyzeScore2 (pass : Str) : Nat :=
  let score0 : Nat := 0
  let score1 := if pass.length ≥ 12 then score0 + 2
    else if pass.length ≥ 8 then score0 + 1 else score0
  let f := charFlags pass
  let score2 := if f.1 then score1 + 1 else score1
  let score3 := if f.2.1 then score2 + 1 else score2
  let score4 := if f.2.2.1 then score3 + 1 else score3
  let score5 := if f.2.2.2 then score4 + 1 else score4
  let score6 := if hasRepeat pass then score5 else score5 + 1
  let score7 := if hasWeakPattern2 (toLowerStr pass) then score6 else score6 + 1
  score7

/-- The accumulated `suggestion` string of variant 2. -/
def analyzeSuggestion2 (pass : Str) : String :=
  let sug0 : String := ""
  let sug1 := if pass.length ≥ 12 then sug0
    else if pass.length ≥ 8 then sug0 else sug0 ++ "Use at least 8 characters. "
  let f := charFlags pass
  let sug2 := if f.1 then sug1 else sug1 ++ "Add uppercase letters. "
  let sug3 := if f.2.1 then sug2 else sug2 ++ "Add lowercase letters. "
  let sug4 := if f.2.2.1 then sug3 else sug3 ++ "Add numbers. "
  let sug5 := if f.2.2.2 then sug4 else sug4 ++ "Add symbols (#, @, !). "
  let sug6 := if hasRepeat pass then sug5 ++ "Avoid repeating characters. " else sug5
  let sug7 := if hasWeakPattern2 (toLowerStr pass) then
    sug6 ++ "Remove common weak patterns like '1234'. " else sug6
  sug7

/-- The final strength classification `score <= 3 / score <= 6 / else`. -/
def classify (score : Nat) : String :=
  if score ≤ 3 then "Weak" else if score ≤ 6 then "Moderate" else "Strong"

/-- Variant 1's `analyzePassword`: the returned `{strength, suggestion}` pair. -/
def analyzePassword1 (pass : Str) : String × String :=
  (classify (analyzeScore1 pass), analyzeSuggestion1 pass)

/-- Variant 2's `analyzePassword`. -/
def analyzePassword2 (pass : Str) : String × String :=
  (classify (analyzeScore2 pass), analyzeSuggestion2 pass)

/-! ## Specification-side definitions

Per-check contributions (read off the source's independent `if`s) used to
state that the score is their sum, and the label ordering used for
monotonicity. -/

/-- Length contribution: `>= 12` gives 2, `>= 8` gives 1, else 0. -/
def lengthPts (pass : Str) : Nat :=
  if pass.length ≥ 12 then 2 else if pass.length ≥ 8 then 1 else 0

/-- Uppercase-presence contribution. -/
def upperPts (pass : Str) : Nat := if (charFlags pass).1 then 1 else 0

/-- Lowercase-presence contribution. -/
def lowerPts (pass : Str) : Nat := if (charFlags pass).2.1 then 1 else 0

/-- Digit-presence contribution. -/
def digitPts (pass : Str) : Nat := if (charFlags pass).2.2.1 then 1 else 0

/-- Symbol-presence contribution. -/
def symbolPts (pass : Str) : Nat := if (charFlags pass).2.2.2 then 1 else 0

/-- No-long-repetition contribution. -/
def repeatPts (pass : Str) : Nat := if hasRepeat pass then 0 else 1

/-- Variant 1's no-weak-token contribution. -/
def weakPts1 (pass : Str) : Nat := if hasWeakPattern1 (toLowerStr pass) then 0 else 1

/-- Variant 2's no-weak-token contribution. -/
def weakPts2 (pass : Str) : Nat := if hasWeakPattern2 (toLowerStr pass) then 0 else 1

/-- The ordering Weak < Moderate < Strong on labels, as a rank. -/
def labelRank (label : String) : Nat :=
  if label = "Weak" then 0 else if label = "Moderate" then 1 else 2

/-- The specification's weak-token predicate: the lower-cased password
contains some dictionary token as a contiguous substring. -/
def specHasWeakToken (pass : Str) : Prop :=
  ∃ w ∈ weakPatterns, w <:+: toLowerStr pass

instance (pass : Str) : Decidable (specHasWeakToken pass) := by
  unfold specHasWeakToken; infer_instance

/-- The concrete password of the spec's Example 2. -/
def examplePassword : Str := "Str0ng!Passw0rd2024".toList

/-- The exact polynomial hash value (base 256) over the unbounded integers;
the Rabin-Karp hashes are its residues modulo 101. -/
def polyVal : Str → Int
  | [] => 0
  | c :: cs => charVal c * 256 ^ cs.length + polyVal cs

/-- The length of the longest proper border of `p.take i` is `b`: `b` names a
shorter prefix that is also a suffix of `p.take i`, and no longer one exists.
This is what `computeLPS` stores at index `i - 1`. -/
def isMaxBorder (p : Str) (i b : Nat) : Prop :=
  b < i ∧ p.take b <:+ p.take i ∧ ∀ l, l < i → p.take l <:+ p.take i → l ≤ b

/-! ## Trie correctness -/

/-- Distinct characters give distinct child indices. -/
theorem trieIdx_inj {c d : Char} (h : trieIdx c = trieIdx d) : c = d := by
  have h2 : (c.toNat : Int) = (d.toNat : Int) := by
    simp only [trieIdx, charVal] at h; omega
  have h3 : c.toNat = d.toNat := by exact_mod_cast h2
  rw [← Char.ofNat_toNat c, ← Char.ofNat_toNat d, h3]

/-- A fresh node accepts no word. -/
theorem search_emptyTrieNode (s : Str) : emptyTrieNode.search s = false := by
  cases s <;> rfl

/-- Reading back the child just written. -/
theorem lookupChild_setChild_self (ch : List (Int × TrieNode)) (i : Int) (v : TrieNode) :
    lookupChild (setChild ch i v) i = some v := by
  induction ch with
  | nil => simp [setChild, lookupChild]
  | cons hd rest ih =>
    obtain ⟨j, u⟩ := hd
    by_cases hj : j = i
    · simp [setChild, hj, lookupChild]
    · simp [setChild, hj, lookupChild, ih]

/-- Writing one child leaves the others unchanged. -/
theorem lookupChild_setChild_ne (ch : List (Int × TrieNode)) {i k : Int} (v : TrieNode)
    (hk : k ≠ i) : lookupChild (setChild ch i v) k = lookupChild ch k := by
  have hik : i ≠ k := fun h => hk h.symm
  induction ch with
  | nil => simp [setChild, lookupChild, hik]
  | cons hd rest ih =>
    obtain ⟨j, u⟩ := hd
    by_cases hj : j = i
    · subst hj
      simp [setChild, lookupChild, hik]
    · simp [setChild, hj, lookupChild, ih]

/-- Inserting a word makes exactly that word searchable, keeping everything
already stored. -/
theorem search_insert (w : Str) : ∀ (t : TrieNode) (s : Str),
    (t.insert w).search s = true ↔ (s = w ∨ t.search s = true) := by
  induction w with
  | nil =>
    intro t s
    obtain ⟨ch, e⟩ := t
    cases s with
    | nil => simp [TrieNode.insert, TrieNode.search]
    | cons c cs =>
      simp only [TrieNode.insert, TrieNode.search]
      constructor
      · intro h; exact Or.inr h
      · rintro (h | h)
        · exact absurd h (by simp)
        · exact h
  | cons a as ih =>
    intro t s
    obtain ⟨ch, e⟩ := t
    cases s with
    | nil =>
      cases hl : lookupChild ch (trieIdx a) with
      | some child => simp [TrieNode.insert, hl, TrieNode.search]
      | none => simp [TrieNode.insert, hl, TrieNode.search]
    | cons c cs =>
      by_cases hca : c = a
      · subst hca
        cases hl : lookupChild ch (trieIdx c) with
        | some child =>
          simp only [TrieNode.insert, hl, TrieNode.search,
            lookupChild_setChild_self, ih child cs]
          constructor
          · rintro (h | h)
            · exact Or.inl (by rw [h])
            · exact Or.inr h
          · rintro (h | h)
            · exact Or.inl (by injection h)
            · exact Or.inr h
        | none =>
          simp only [TrieNode.insert, hl, TrieNode.search,
            lookupChild_setChild_self, ih emptyTrieNode cs, search_emptyTrieNode]
          constructor
          · rintro (h | h)
            · exact Or.inl (by rw [h])
            · exact absurd h (by simp)
          · rintro (h | h)
            · exact Or.inl (by injection h)
            · simp at h
      · have hidx : trieIdx c ≠ trieIdx a := fun h => hca (trieIdx_inj h)
        have hs : ∀ ch2, TrieNode.search (.mk ch2 e) (c :: cs) =
            match lookupChild ch2 (trieIdx c) with
            | some child => child.search cs
            | none => false := fun _ => rfl
        cases hl : lookupChild ch (trieIdx a) with
        | some child =>
          simp only [TrieNode.insert, hl, hs,
            lookupChild_setChild_ne _ _ hidx]
          constructor
          · intro h; exact Or.inr h
          · rintro (h | h)
            · exact absurd h (by simp [hca])
            · exact h
        | none =>
          simp only [TrieNode.insert, hl, hs,
            lookupChild_setChild_ne _ _ hidx]
          constructor
          · intro h; exact Or.inr h
          · rintro (h | h)
            · exact absurd h (by simp [hca])
            · exact h

/-- A trie built by a sequence of inserts accepts exactly the inserted words
plus whatever the starting trie accepted. -/
theorem search_foldl (ws : List Str) : ∀ (t : TrieNode) (s : Str),
    ((ws.foldl TrieNode.insert t).search s = true) ↔ (s ∈ ws ∨ t.search s = true) := by
  induction ws with
  | nil => intro t s; simp
  | cons w rest ih =>
    intro t s
    simp only [List.foldl_cons, ih, search_insert, List.mem_cons]
    tauto

/-- Claim C7: Trie search returns true exactly for the words inserted
verbatim (full-string membership, not substring); in particular, after
inserting the dictionary, "1234" is found, while "12345" and "" are not. -/
theorem claim_C7_trie_exact_membership :
    (∀ (ws : List Str) (s : Str),
      ((ws.foldl TrieNode.insert emptyTrieNode).search s = true) ↔ s ∈ ws) ∧
    weakTrie.search ("1234".toList) = true ∧
    weakTrie.search ("12345".toList) = false ∧
    weakTrie.search ([] : Str) = false := by
  refine ⟨fun ws s => ?_, by decide, by decide, by decide⟩
  rw [search_foldl, search_emptyTrieNode]
  simp

/-! ## The analyzer's always-true weak-pattern check -/

/-- The trie finds the first dictionary token (it was just inserted). -/
theorem weakTrie_search_password : weakTrie.search ("password".toList) = true := by
  decide

/-- Variant 1's weak-pattern loop succeeds on every input: its disjunction
asks the trie for the dictionary token itself. -/
theorem hasWeakPattern1_true (lowerPass : Str) : hasWeakPattern1 lowerPass = true := by
  simp only [hasWeakPattern1, weakPatterns, List.any_cons, weakTrie_search_password,
    Bool.or_true, Bool.true_or]

/-- Variant 2's weak-pattern loop succeeds on every input. -/
theorem hasWeakPattern2_true (lowerPass : Str) : hasWeakPattern2 lowerPass = true := by
  simp only [hasWeakPattern2, weakPatterns, List.any_cons, weakTrie_search_password,
    Bool.or_true, Bool.true_or]

/-- Accumulating a conditional point is adding the check's contribution. -/
theorem ite_acc_pos (c : Prop) [Decidable c] (x : Nat) :
    (if c then x + 1 else x) = x + (if c then 1 else 0) := by split_ifs <;> omega

/-- Accumulating a point on a negative check, likewise. -/
theorem ite_acc_neg (c : Prop) [Decidable c] (x : Nat) :
    (if c then x else x + 1) = x + (if c then 0 else 1) := by split_ifs <;> omega

/-- The seven-way sum decomposition of both variants' scores. -/
theorem analyzeScore_eq_sum (pass : Str) :
    analyzeScore1 pass = lengthPts pass + upperPts pass + lowerPts pass + digitPts pass
      + symbolPts pass + repeatPts pass + weakPts1 pass ∧
    analyzeScore2 pass = lengthPts pass + upperPts pass + lowerPts pass + digitPts pass
      + symbolPts pass + repeatPts pass + weakPts2 pass := by
  constructor
  · simp only [analyzeScore1, lengthPts, upperPts, lowerPts, digitPts, symbolPts,
      repeatPts, weakPts1, Nat.zero_add]
    rw [ite_acc_neg, ite_acc_neg, ite_acc_pos, ite_acc_pos, ite_acc_pos, ite_acc_pos]
  · simp only [analyzeScore2, lengthPts, upperPts, lowerPts, digitPts, symbolPts,
      repeatPts, weakPts2, Nat.zero_add]
    rw [ite_acc_neg, ite_acc_neg, ite_acc_pos, ite_acc_pos, ite_acc_pos, ite_acc_pos]

/-- Each contribution is bounded by its maximum. -/
theorem pts_bounds (pass : Str) :
    lengthPts pass ≤ 2 ∧ upperPts pass ≤ 1 ∧ lowerPts pass ≤ 1 ∧ digitPts pass ≤ 1 ∧
    symbolPts pass ≤ 1 ∧ repeatPts pass ≤ 1 ∧ weakPts1 pass ≤ 1 ∧ weakPts2 pass ≤ 1 := by
  refine ⟨?_, ?_, ?_, ?_, ?_, ?_, ?_, ?_⟩ <;>
    first
      | (unfold lengthPts; split_ifs <;> omega)
      | (unfold upperPts; split_ifs <;> omega)
      | (unfold lowerPts; split_ifs <;> omega)
      | (unfold digitPts; split_ifs <;> omega)
      | (unfold symbolPts; split_ifs <;> omega)
      | (unfold repeatPts; split_ifs <;> omega)
      | (unfold weakPts1; split_ifs <;> omega)
      | (unfold weakPts2; split_ifs <;> omega)

/-- Claim C5: in both variants every one of the seven checks contributes to
the score independently of the others - the score is exactly the sum of the
seven contributions - and the total always lies in [0, 8]. -/
theorem claim_C5_score_is_sum_of_checks (pass : Str) :
    (analyzeScore1 pass = lengthPts pass + upperPts pass + lowerPts pass + digitPts pass
      + symbolPts pass + repeatPts pass + weakPts1 pass) ∧
    (analyzeScore2 pass = lengthPts pass + upperPts pass + lowerPts pass + digitPts pass
      + symbolPts pass + repeatPts pass + weakPts2 pass) ∧
    analyzeScore1 pass ≤ 8 ∧ analyzeScore2 pass ≤ 8 := by
  obtain ⟨h1, h2⟩ := analyzeScore_eq_sum pass
  obtain ⟨b1, b2, b3, b4, b5, b6, b7, b8⟩ := pts_bounds pass
  exact ⟨h1, h2, by omega, by omega⟩

/-- Evaluating the label rank on the three literals. -/
theorem labelRank_eval : labelRank "Weak" = 0 ∧ labelRank "Moderate" = 1 ∧
    labelRank "Strong" = 2 := by decide

/-- Claim C6: the classification uses the fixed thresholds (at most 3 is
Weak, 4 to 6 is Moderate, at least 7 is Strong) and is monotone
non-decreasing in the score for the ordering Weak < Moderate < Strong. -/
theorem claim_C6_classify_thresholds_monotone :
    (∀ s : Nat, (classify s = "Weak" ↔ s ≤ 3) ∧
      (classify s = "Moderate" ↔ 4 ≤ s ∧ s ≤ 6) ∧ (classify s = "Strong" ↔ 7 ≤ s)) ∧
    ∀ s t : Nat, s ≤ t → labelRank (classify s) ≤ labelRank (classify t) := by
  constructor
  · intro s
    unfold classify
    split_ifs with h1 h2 <;>
      refine ⟨Iff.intro (fun hw => ?_) (fun hw => ?_),
        Iff.intro (fun hw => ?_) (fun hw => ?_),
        Iff.intro (fun hw => ?_) (fun hw => ?_)⟩ <;>
      first
        | omega
        | rfl
        | (exact absurd hw (by decide))
  · intro s t hst
    unfold classify
    split_ifs <;>
      simp only [labelRank_eval.1, labelRank_eval.2.1, labelRank_eval.2.2] <;> omega

/-- Witness for claim C6 at score 2 against score 5. -/
theorem claim_C6_witness :
    labelRank (classify 2) ≤ labelRank (classify 5) :=
  claim_C6_classify_thresholds_monotone.2 2 5 (by omega)

/-- Variant 1's suggestion always ends with its weak-pattern message. -/
theorem analyzeSuggestion1_ends_weak (pass : Str) :
    ∃ s : String, analyzeSuggestion1 pass =
      s ++ "Avoid common weak patterns like '1234' or 'password'. " := by
  simp only [analyzeSuggestion1, hasWeakPattern1_true, if_true]
  exact ⟨_, rfl⟩

/-- Variant 2's suggestion always ends with its weak-pattern message. -/
theorem analyzeSuggestion2_ends_weak (pass : Str) :
    ∃ s : String, analyzeSuggestion2 pass =
      s ++ "Remove common weak patterns like '1234'. " := by
  simp only [analyzeSuggestion2, hasWeakPattern2_true, if_true]
  exact ⟨_, rfl⟩

/-- Claim C10: in both variants the weak-pattern detection fires on every
password (the disjunction queries the trie for a token of the dictionary
itself), so the weak-pattern suggestion is always appended, the no-weak-token
check always contributes 0, and the score never exceeds 7. -/
theorem claim_C10_weak_check_always_fires (pass : Str) :
    hasWeakPattern1 (toLowerStr pass) = true ∧ hasWeakPattern2 (toLowerStr pass) = true ∧
    weakPts1 pass = 0 ∧ weakPts2 pass = 0 ∧
    analyzeScore1 pass ≤ 7 ∧ analyzeScore2 pass ≤ 7 ∧
    (∃ s : String, analyzeSuggestion1 pass =
      s ++ "Avoid common weak patterns like '1234' or 'password'. ") ∧
    (∃ s : String, analyzeSuggestion2 pass =
      s ++ "Remove common weak patterns like '1234'. ") := by
  have hw1 : weakPts1 pass = 0 := by
    unfold weakPts1; rw [hasWeakPattern1_true]; rfl
  have hw2 : weakPts2 pass = 0 := by
    unfold weakPts2; rw [hasWeakPattern2_true]; rfl
  obtain ⟨d1, d2⟩ := analyzeScore_eq_sum pass
  obtain ⟨b1, b2, b3, b4, b5, b6, _, _⟩ := pts_bounds pass
  exact ⟨hasWeakPattern1_true _, hasWeakPattern2_true _, hw1, hw2,
    by omega, by omega,
    analyzeSuggestion1_ends_weak pass, analyzeSuggestion2_ends_weak pass⟩

/-- Claim C8: the analyzer is total and deterministic; every input, the
empty string included, yields a well-formed labelled result, and equal
inputs yield equal results. -/
theorem claim_C8_total_deterministic :
    (∀ pass : Str,
      ((analyzePassword1 pass).1 = "Weak" ∨ (analyzePassword1 pass).1 = "Moderate" ∨
        (analyzePassword1 pass).1 = "Strong") ∧
      ((analyzePassword2 pass).1 = "Weak" ∨ (analyzePassword2 pass).1 = "Moderate" ∨
        (analyzePassword2 pass).1 = "Strong")) ∧
    (∀ p q : Str, p = q →
      analyzePassword1 p = analyzePassword1 q ∧ analyzePassword2 p = analyzePassword2 q) ∧
    (analyzePassword1 []).1 = "Weak" ∧ (analyzePassword2 []).1 = "Weak" := by
  have hcl : ∀ n : Nat, classify n = "Weak" ∨ classify n = "Moderate" ∨
      classify n = "Strong" := by
    intro n; unfold classify; split_ifs <;> simp
  refine ⟨fun pass => ⟨hcl _, hcl _⟩, fun p q h => by rw [h]; exact ⟨rfl, rfl⟩, ?_, ?_⟩
  · decide
  · decide

/-- Witness for claim C8 at the concrete input "abc". -/
theorem claim_C8_witness :
    analyzePassword1 ("abc".toList) = analyzePassword1 ("abc".toList) ∧
    analyzePassword2 ("abc".toList) = analyzePassword2 ("abc".toList) :=
  claim_C8_total_deterministic.2.1 ("abc".toList) ("abc".toList) rfl

/-- Claim C9 is refuted by the dictionary itself: inserting the token "1234"
makes `Trie::insert` compute the child index '1' - 'a' = -48, far outside
the bounds [0, 26) of the 26-entry child array. -/
theorem claim_C9_oob_index :
    ("1234".toList ∈ weakPatterns) ∧ ('1' ∈ "1234".toList) ∧
    trieIdx '1' = -48 ∧ ¬(0 ≤ trieIdx '1' ∧ trieIdx '1' < 26) := by
  refine ⟨by decide, by decide, by decide, ?_⟩
  intro h
  have : trieIdx '1' = -48 := by decide
  omega

/-- Claim C1's failing input: the password "Abc" contains no dictionary
token once lower-cased, yet in both variants the weak-token check
contributes 0 instead of +1 and the weak-pattern suggestion is appended. -/
theorem claim_C1_failing_input :
    ¬ specHasWeakToken ("Abc".toList) ∧
    weakPts1 ("Abc".toList) = 0 ∧ weakPts2 ("Abc".toList) = 0 ∧
    (∃ s : String, analyzeSuggestion1 ("Abc".toList) =
      s ++ "Avoid common weak patterns like '1234' or 'password'. ") ∧
    (∃ s : String, analyzeSuggestion2 ("Abc".toList) =
      s ++ "Remove common weak patterns like '1234'. ") := by
  refine ⟨by decide, ?_, ?_, analyzeSuggestion1_ends_weak _, analyzeSuggestion2_ends_weak _⟩
  · unfold weakPts1; rw [hasWeakPattern1_true]; rfl
  · unfold weakPts2; rw [hasWeakPattern2_true]; rfl

/-- Claim C4's failing input: on "Str0ng!Passw0rd2024" six checks pass but
the always-firing weak-pattern check withholds its point, so both variants
score 7 (not the claimed 8); the label is still "Strong". -/
theorem claim_C4_failing_input :
    ¬ specHasWeakToken examplePassword ∧
    analyzeScore1 examplePassword = 7 ∧ analyzeScore2 examplePassword = 7 ∧
    (analyzePassword1 examplePassword).1 = "Strong" ∧
    (analyzePassword2 examplePassword).1 = "Strong" := by
  refine ⟨by decide, by decide, by decide, by decide, by decide⟩

/-! ## Character and take/suffix toolkit -/

/-- Reading inside the bounds is plain list indexing. -/
theorem strGet_eq_getElem {l : Str} {i : Nat} (h : i < l.length) : strGet l i = l[i] := by
  simp [strGet, List.getD_eq_getElem?_getD, List.getElem?_eq_getElem h]

/-- Reading a `take` inside its bound reads the original list. -/
theorem strGet_take {l : Str} {n i : Nat} (h : i < n) : strGet (l.take n) i = strGet l i := by
  simp [strGet, List.getD_eq_getElem?_getD, List.getElem?_take_of_lt h]

/-- Reading a `drop` shifts the index. -/
theorem strGet_drop (t : Str) (i j : Nat) : strGet (t.drop i) j = strGet t (i + j) := by
  simp [strGet, List.getD_eq_getElem?_getD, List.getElem?_drop]

/-- Reading past a left factor reads the right factor. -/
theorem strGet_append_right (u p : Str) (k : Nat) :
    strGet (u ++ p) (u.length + k) = strGet p k := by
  have hidx : u.length + k - u.length = k := by omega
  simp only [strGet, List.getD_eq_getElem?_getD,
    List.getElem?_append_right (by omega : u.length ≤ u.length + k), hidx]

/-- One more taken character is appended on the right. -/
theorem take_succ_concat {l : Str} {i : Nat} (h : i < l.length) :
    l.take (i+1) = l.take i ++ [strGet l i] := by
  rw [List.take_succ]
  congr 1
  rw [List.getElem?_eq_getElem h]
  simp [strGet, List.getD_eq_getElem?_getD, List.getElem?_eq_getElem h]

/-- Of two suffixes of the same list, the shorter is a suffix of the longer. -/
theorem suffix_of_suffix_le {l1 l2 l3 : List Char} (h1 : l1 <:+ l3) (h2 : l2 <:+ l3)
    (h : l1.length ≤ l2.length) : l1 <:+ l2 := by
  rw [← List.reverse_prefix] at h1 h2 ⊢
  exact List.prefix_of_prefix_length_le h1 h2 (by simp [h])

/-- Suffix comparison peels one appended character from each side. -/
theorem concat_suffix_concat {u v : Str} {a b : Char} :
    u ++ [a] <:+ v ++ [b] ↔ a = b ∧ u <:+ v := by
  rw [← List.reverse_prefix, List.reverse_append, List.reverse_append]
  simp only [List.reverse_cons, List.reverse_nil, List.nil_append, List.singleton_append]
  rw [List.cons_prefix_cons, List.reverse_prefix]

/-- Extending a partial match by one character on each side. -/
theorem take_succ_suffix_iff {p t : Str} {a b : Nat} (ha : a < p.length)
    (hb : b < t.length) :
    p.take (a+1) <:+ t.take (b+1) ↔ (strGet p a = strGet t b ∧ p.take a <:+ t.take b) := by
  rw [take_succ_concat ha, take_succ_concat hb, concat_suffix_concat]

/-- Two prefixes of `p` that end a common list: the shorter is a border of
the longer. -/
theorem take_suffix_take_of_le {p : Str} {x : Str} {a b : Nat}
    (h1 : p.take a <:+ x) (h2 : p.take b <:+ x) (hab : a ≤ b) (hbm : b ≤ p.length) :
    p.take a <:+ p.take b := by
  refine suffix_of_suffix_le h1 h2 ?_
  rw [List.length_take, List.length_take]
  omega

/-! ## Brute-force matcher correctness -/

/-- The inner comparison loop checks exactly a prefix match at the offset. -/
theorem matchAt_iff (ts p : Str) : matchAt ts p = true ↔ p <+: ts := by
  induction ts generalizing p with
  | nil =>
    cases p with
    | nil => simp [matchAt]
    | cons d ds => simp [matchAt]
  | cons c cs ih =>
    cases p with
    | nil => simp [matchAt]
    | cons d ds =>
      simp only [matchAt, Bool.and_eq_true, decide_eq_true_eq, List.cons_prefix_cons, ih]
      constructor
      · rintro ⟨h1, h2⟩; exact ⟨h1.symm, h2⟩
      · rintro ⟨h1, h2⟩; exact ⟨h1.symm, h2⟩

/-- `bruteForceMatch` decides contiguous-substring occurrence, for every
pair of strings, the empty pattern included. -/
theorem bruteForceMatch_iff (t p : Str) : bruteForceMatch t p = true ↔ p <:+: t := by
  unfold bruteForceMatch
  split_ifs with hlen
  · constructor
    · intro h; exact absurd h (by simp)
    · intro h
      have := h.length_le
      omega
  · push_neg at hlen
    simp only [List.any_eq_true, List.mem_range, matchAt_iff]
    constructor
    · rintro ⟨i, hi, hpre⟩
      exact ((hpre.isInfix).trans (List.drop_suffix i t).isInfix)
    · rintro ⟨a, b, hab⟩
      refine ⟨a.length, ?_, ?_⟩
      · have : t.length = a.length + p.length + b.length := by
          rw [← hab]; simp; omega
        omega
      · rw [← hab, List.append_assoc, List.drop_left]
        exact List.prefix_append p b

/-! ## Rabin-Karp matcher correctness -/

/-- The source's truncated `%` plus negative fix-up equals the Euclidean
remainder modulo 101. -/
theorem cppMod101_eq_emod (x : Int) : cppMod101 x = x % 101 := by
  have hcong : x % 101 = (x.tmod 101) % 101 := by
    conv_lhs => rw [← Int.tmod_add_tdiv x 101]
    rw [Int.add_mul_emod_self_left]
  have hlow : -101 < x.tmod 101 := by
    cases x with
    | ofNat m =>
      have h : (Int.ofNat m).tmod 101 = ((m % 101 : Nat) : Int) := rfl
      rw [h]; omega
    | negSucc m =>
      have h : (Int.negSucc m).tmod 101 = -(((m+1) % 101 : Nat) : Int) := rfl
      rw [h]
      have := Nat.mod_lt (m+1) (by omega : (0:Nat) < 101)
      omega
  have hhigh : x.tmod 101 < 101 := Int.tmod_lt_of_pos x (by omega)
  unfold cppMod101
  by_cases hv : x.tmod 101 < 0
  · simp only [hv, if_true]
    have h2 : (x.tmod 101) % 101 = (x.tmod 101 + 101 * 1) % 101 :=
      (Int.add_mul_emod_self_left _ _ _).symm
    rw [hcong, h2, Int.emod_eq_of_lt (by omega) (by omega)]
    omega
  · simp only [hv, if_false]
    rw [hcong, Int.emod_eq_of_lt (by omega) hhigh]

/-- Character values are non-negative. -/
theorem charVal_nonneg (c : Char) : 0 ≤ charVal c := by
  unfold charVal; positivity

/-- Appending one character to a window is one Horner step. -/
theorem polyVal_concat (w : Str) (d : Char) :
    polyVal (w ++ [d]) = 256 * polyVal w + charVal d := by
  induction w with
  | nil => simp [polyVal]
  | cons c cs ih =>
    rw [List.cons_append]
    show charVal c * 256 ^ (cs ++ [d]).length + polyVal (cs ++ [d]) = _
    rw [ih]
    have hl : (cs ++ [d]).length = cs.length + 1 := by simp
    rw [hl]
    show _ = 256 * (charVal c * 256 ^ cs.length + polyVal cs) + charVal d
    ring

/-- The initial hash loop computes the residue of the prefix's polynomial
value, staying in [0, 101). -/
theorem rkHashAux_spec (s : Str) : ∀ k, k ≤ s.length →
    0 ≤ rkHashAux s k ∧ rkHashAux s k < 101 ∧
    rkHashAux s k = (polyVal (s.take k)) % 101 := by
  intro k
  induction k with
  | zero =>
    intro _
    refine ⟨le_refl 0, by norm_num [rkHashAux], by simp [rkHashAux, polyVal]⟩
  | succ k ih =>
    intro hk
    obtain ⟨h0, h1, h2⟩ := ih (by omega)
    have harg : (0:Int) ≤ 256 * rkHashAux s k + charVal (strGet s k) := by
      have := charVal_nonneg (strGet s k); omega
    have hval : rkHashAux s (k+1)
        = (256 * rkHashAux s k + charVal (strGet s k)) % 101 := by
      show (256 * rkHashAux s k + charVal (strGet s k)).tmod 101 = _
      rw [Int.tmod_eq_emod harg (by omega)]
    refine ⟨?_, ?_, ?_⟩
    · rw [hval]; exact Int.emod_nonneg _ (by omega)
    · rw [hval]; exact Int.emod_lt_of_pos _ (by omega)
    · rw [hval, take_succ_concat (by omega : k < s.length), polyVal_concat]
      conv_lhs => rw [h2]
      have hmX : polyVal (s.take k) % 101 ≡ polyVal (s.take k) [ZMOD 101] :=
        Int.emod_emod_of_dvd _ dvd_rfl
      exact (hmX.mul_left 256).add_right _

/-- The power accumulator `h` is the residue of `256 ^ k`. -/
theorem rkH_spec : ∀ k, 0 ≤ rkH k ∧ rkH k < 101 ∧ rkH k = ((256:Int) ^ k) % 101 := by
  intro k
  induction k with
  | zero => exact ⟨by norm_num [rkH], by norm_num [rkH], by norm_num [rkH]⟩
  | succ k ih =>
    obtain ⟨h0, h1, h2⟩ := ih
    have hval : rkH (k+1) = (rkH k * 256) % 101 := by
      show (rkH k * 256).tmod 101 = _
      rw [Int.tmod_eq_emod (by positivity) (by omega)]
    refine ⟨?_, ?_, ?_⟩
    · rw [hval]; exact Int.emod_nonneg _ (by omega)
    · rw [hval]; exact Int.emod_lt_of_pos _ (by omega)
    · rw [hval, pow_succ]
      conv_lhs => rw [h2]
      have hmX : (256:Int) ^ k % 101 ≡ (256:Int) ^ k [ZMOD 101] :=
        Int.emod_emod_of_dvd _ dvd_rfl
      exact hmX.mul_right 256

/-- A window starts with its first character. -/
theorem window_cons {t : Str} {i m : Nat} (hi : i < t.length) (hm : 1 ≤ m) :
    (t.drop i).take m = strGet t i :: (t.drop (i+1)).take (m-1) := by
  rw [List.drop_eq_getElem_cons hi]
  obtain ⟨mm, rfl⟩ : ∃ mm, m = mm + 1 := ⟨m - 1, by omega⟩
  rw [List.take_succ_cons, strGet_eq_getElem hi]
  simp

/-- A window ends with its last character. -/
theorem window_concat {t : Str} {i m : Nat} (hm : 1 ≤ m) (h : i + m ≤ t.length) :
    (t.drop i).take m = (t.drop i).take (m-1) ++ [strGet t (i + (m-1))] := by
  have h1 : m - 1 < (t.drop i).length := by
    rw [List.length_drop]; omega
  have h2 : (t.drop i).take m = (t.drop i).take (m-1+1) := by
    congr 1; omega
  rw [h2, take_succ_concat h1, strGet_drop]

/-- The rolling update carries the window-hash invariant one step right. -/
theorem rkUpdate_spec (t : Str) {m : Nat} (hm : 1 ≤ m) {i : Nat}
    (h : i + 1 + m ≤ t.length) (tHash : Int)
    (ht : tHash = (polyVal ((t.drop i).take m)) % 101) :
    rkUpdate t m (rkH (m-1)) tHash i = (polyVal ((t.drop (i+1)).take m)) % 101 := by
  unfold rkUpdate
  rw [cppMod101_eq_emod]
  have hwi : (t.drop i).take m = strGet t i :: (t.drop (i+1)).take (m-1) :=
    window_cons (by omega) hm
  have hwi1 : (t.drop (i+1)).take m
      = (t.drop (i+1)).take (m-1) ++ [strGet t (i+1+(m-1))] := window_concat hm (by omega)
  have hlenmid : ((t.drop (i+1)).take (m-1)).length = m - 1 := by
    rw [List.length_take, List.length_drop]; omega
  have hpolyi : polyVal ((t.drop i).take m)
      = charVal (strGet t i) * 256^(m-1) + polyVal ((t.drop (i+1)).take (m-1)) := by
    rw [hwi]
    show charVal (strGet t i) * 256 ^ ((t.drop (i+1)).take (m-1)).length + _ = _
    rw [hlenmid]
  have hpolyi1 : polyVal ((t.drop (i+1)).take m)
      = 256 * polyVal ((t.drop (i+1)).take (m-1)) + charVal (strGet t (i+1+(m-1))) := by
    rw [hwi1, polyVal_concat]
  have htm : tHash ≡ polyVal ((t.drop i).take m) [ZMOD 101] := by
    rw [ht]; exact Int.emod_emod_of_dvd _ dvd_rfl
  have hH : rkH (m-1) ≡ (256:Int)^(m-1) [ZMOD 101] := by
    rw [(rkH_spec (m-1)).2.2]; exact Int.emod_emod_of_dvd _ dvd_rfl
  have hstep : 256 * (tHash - charVal (strGet t i) * rkH (m-1))
      + charVal (strGet t (i + m))
      ≡ 256 * (polyVal ((t.drop i).take m) - charVal (strGet t i) * (256:Int)^(m-1))
      + charVal (strGet t (i + m)) [ZMOD 101] :=
    (((htm.sub (hH.mul_left _)).mul_left 256).add_right _)
  have hval : 256 * (polyVal ((t.drop i).take m)
        - charVal (strGet t i) * (256:Int)^(m-1))
      + charVal (strGet t (i + m)) = polyVal ((t.drop (i+1)).take m) := by
    rw [hpolyi, hpolyi1]
    have hidx : i + 1 + (m-1) = i + m := by omega
    rw [hidx]
    ring
  calc (256 * (tHash - charVal (strGet t i) * rkH (m-1))
        + charVal (strGet t (i + m))) % 101
      = (256 * (polyVal ((t.drop i).take m)
          - charVal (strGet t i) * (256:Int)^(m-1))
        + charVal (strGet t (i + m))) % 101 := hstep
    _ = polyVal ((t.drop (i+1)).take m) % 101 := by rw [hval]

/-- The Rabin-Karp loop finds exactly the occurrences at or after its
current offset, given the rolling-hash invariant. -/
theorem rkLoopF_iff (t p : Str) (hmn : p.length ≤ t.length) :
    ∀ (fuel : Nat) (tHash : Int) (i : Nat),
      i + fuel = t.length - p.length + 1 →
      tHash = (polyVal ((t.drop i).take p.length)) % 101 →
      (rkLoopF t p (rkHashAux p p.length) (rkH (p.length - 1)) tHash i fuel = true ↔
        ∃ s, i ≤ s ∧ s ≤ t.length - p.length ∧ (t.drop s).take p.length = p) := by
  intro fuel
  induction fuel with
  | zero =>
    intro tHash i hfuel ht
    simp only [rkLoopF]
    constructor
    · intro h; simp at h
    · rintro ⟨s, hs1, hs2, _⟩; omega
  | succ fuel ih =>
    intro tHash i hfuel ht
    have hile : i ≤ t.length - p.length := by omega
    by_cases hhit : rkHashAux p p.length = tHash ∧ (t.drop i).take p.length = p
    · rw [rkLoopF, if_pos hhit]
      simp only [true_iff]
      exact ⟨i, le_refl i, hile, hhit.2⟩
    · have hwne : (t.drop i).take p.length ≠ p := by
        intro hw
        apply hhit
        refine ⟨?_, hw⟩
        have := (rkHashAux_spec p p.length (le_refl _)).2.2
        rw [this, ht, hw, List.take_length]
      rw [rkLoopF, if_neg hhit]
      by_cases hlt : i < t.length - p.length
      · rw [if_pos hlt]
        have hm1 : 1 ≤ p.length := by
          by_contra hm0
          have hp : p = [] := List.length_eq_zero.mp (by omega)
          apply hwne
          rw [hp]
          rfl
        have ht' : rkUpdate t p.length (rkH (p.length - 1)) tHash i
            = (polyVal ((t.drop (i+1)).take p.length)) % 101 :=
          rkUpdate_spec t hm1 (by omega) tHash ht
        rw [ih _ (i+1) (by omega) ht']
        constructor
        · rintro ⟨s, hs1, hs2, hs3⟩; exact ⟨s, by omega, hs2, hs3⟩
        · rintro ⟨s, hs1, hs2, hs3⟩
          refine ⟨s, ?_, hs2, hs3⟩
          rcases Nat.eq_or_lt_of_le hs1 with h | h
          · exact absurd (h ▸ hs3) hwne
          · omega
      · rw [if_neg hlt]
        constructor
        · intro h; simp at h
        rintro ⟨s, hs1, hs2, hs3⟩
        have hsi : s = i := by omega
        exact absurd (hsi ▸ hs3) hwne

/-- `rabinKarpMatch` decides contiguous-substring occurrence, for every
pair of strings, the empty pattern included. -/
theorem rabinKarpMatch_iff (t p : Str) : rabinKarpMatch t p = true ↔ p <:+: t := by
  unfold rabinKarpMatch
  split_ifs with hlen
  · constructor
    · intro h; simp at h
    · intro h; have := h.length_le; omega
  · push_neg at hlen
    have h0 : rkHashAux t p.length = (polyVal ((t.drop 0).take p.length)) % 101 := by
      rw [List.drop_zero]
      exact (rkHashAux_spec t p.length hlen).2.2
    rw [rkLoopF_iff t p hlen (t.length - p.length + 1) _ 0 (by omega) h0]
    constructor
    · rintro ⟨s, _, hs2, hs3⟩
      rw [← hs3]
      exact (( List.take_prefix _ _).isInfix).trans (List.drop_suffix s t).isInfix
    · rintro ⟨a, b, hab⟩
      refine ⟨a.length, by omega, ?_, ?_⟩
      · have : t.length = a.length + p.length + b.length := by
          rw [← hab]; simp; omega
        omega
      · rw [← hab, List.append_assoc, List.drop_left]
        exact List.take_left p b

/-! ## KMP failure-table correctness -/

/-- A one-character prefix has only the empty border. -/
theorem isMaxBorder_one (p : Str) : isMaxBorder p 1 0 :=
  ⟨Nat.zero_lt_one, by simp [List.nil_suffix], fun l hl _ => by omega⟩

/-- Reading back the table entry just written. -/
theorem getD_set_self {l : List Nat} {i : Nat} (h : i < l.length) (v : Nat) :
    (l.set i v).getD i 0 = v := by
  simp [List.getD_eq_getElem?_getD, List.getElem?_set_eq h]

/-- Other table entries are unchanged by a write. -/
theorem getD_set_ne {l : List Nat} {i k : Nat} (h : i ≠ k) (v : Nat) :
    (l.set i v).getD k 0 = l.getD k 0 := by
  simp [List.getD_eq_getElem?_getD, List.getElem?_set_ne h]

/-- The loop of `computeLPS` keeps every finalized entry the longest proper
border of its prefix, while `len` walks the border chain of the current
prefix having already ruled out the longer candidates. -/
theorem lpsAuxF_correct (p : Str) : ∀ (fuel : Nat) (lps : List Nat) (i len : Nat),
    lps.length = p.length →
    1 ≤ i → i ≤ p.length → len < i →
    (∀ k, k < i → isMaxBorder p (k+1) (lps.getD k 0)) →
    p.take len <:+ p.take i →
    (∀ l, len < l → l < i → p.take l <:+ p.take i → strGet p l ≠ strGet p i) →
    2 * (p.length - i) + len < fuel →
    (lpsAuxF p lps i len fuel).length = p.length ∧
    (∀ k, k < p.length → isMaxBorder p (k+1) ((lpsAuxF p lps i len fuel).getD k 0)) := by
  intro fuel
  induction fuel with
  | zero => intro lps i len _ _ _ _ _ _ _ hfuel; omega
  | succ fuel ih =>
    intro lps i len hlen h1i him hleni hP5 hP6 hP7 hfuel
    by_cases hi : i < p.length
    · rw [lpsAuxF, if_pos hi]
      by_cases hc : strGet p i = strGet p len
      · rw [if_pos hc]
        have hmaxi : isMaxBorder p (i+1) (len+1) := by
          refine ⟨by omega, ?_, ?_⟩
          · rw [take_succ_suffix_iff (by omega) hi]
            exact ⟨hc.symm, hP6⟩
          · intro l hl hsuf
            match l with
            | 0 => omega
            | l'+1 =>
              rw [take_succ_suffix_iff (by omega) hi] at hsuf
              obtain ⟨hchar, hsub⟩ := hsuf
              by_cases hl' : l' ≤ len
              · omega
              · exact absurd hchar (hP7 l' (by omega) (by omega) hsub)
        refine ih (lps.set i (len+1)) (i+1) (len+1) (by simp [hlen]) (by omega)
          (by omega) (by omega) ?_ ?_ ?_ (by omega)
        · intro k hk
          by_cases hki : k = i
          · subst hki
            rw [getD_set_self (by omega) _]
            exact hmaxi
          · rw [getD_set_ne (fun h => hki h.symm) _]
            exact hP5 k (by omega)
        · rw [take_succ_suffix_iff (by omega) hi]
          exact ⟨hc.symm, hP6⟩
        · intro l hl1 hl2 hsuf
          have := hmaxi.2.2 l (by omega) hsuf
          omega
      · rw [if_neg hc]
        by_cases hlz : len ≠ 0
        · rw [if_pos hlz]
          have hmb : isMaxBorder p len (lps.getD (len-1) 0) := by
            have h5 := hP5 (len-1) (by omega)
            have heq : len - 1 + 1 = len := by omega
            rwa [heq] at h5
          have hBlt : lps.getD (len-1) 0 < len := hmb.1
          refine ih lps i (lps.getD (len-1) 0) hlen h1i him (by omega) hP5 ?_ ?_ (by omega)
          · exact hmb.2.1.trans hP6
          · intro l hBl hli hsuf
            by_cases hll : len < l
            · exact hP7 l hll hli hsuf
            · by_cases hle : l = len
              · subst hle
                exact fun h => hc h.symm
              · have hsub : p.take l <:+ p.take len :=
                  take_suffix_take_of_le hsuf hP6 (by omega) (by omega)
                have := hmb.2.2 l (by omega) hsub
                omega
        · rw [if_neg hlz]
          have hlen0 : len = 0 := by omega
          have hmaxi : isMaxBorder p (i+1) 0 := by
            refine ⟨by omega, by simp [List.nil_suffix], ?_⟩
            intro l hl hsuf
            match l with
            | 0 => omega
            | l'+1 =>
              rw [take_succ_suffix_iff (by omega) hi] at hsuf
              obtain ⟨hchar, hsub⟩ := hsuf
              by_cases hl0 : l' = 0
              · subst hl0
                rw [hlen0] at hc
                exact absurd hchar.symm hc
              · exact absurd hchar (hP7 l' (by omega) (by omega) hsub)
          refine ih (lps.set i 0) (i+1) 0 (by simp [hlen]) (by omega) (by omega)
            (by omega) ?_ ?_ ?_ (by omega)
          · intro k hk
            by_cases hki : k = i
            · subst hki
              rw [getD_set_self (by omega) _]
              exact hmaxi
            · rw [getD_set_ne (fun h => hki h.symm) _]
              exact hP5 k (by omega)
          · simp [List.nil_suffix]
          · intro l hl1 hl2 hsuf
            have := hmaxi.2.2 l (by omega) hsuf
            omega
    · rw [lpsAuxF, if_neg hi]
      have him' : i = p.length := by omega
      exact ⟨hlen, fun k hk => hP5 k (by omega)⟩

/-- The zero-filled initial table reads zero everywhere. -/
theorem replicate_getD (m k : Nat) : (List.replicate m (0:Nat)).getD k 0 = 0 := by
  simp only [List.getD_eq_getElem?_getD, List.getElem?_replicate]
  split <;> rfl

/-- Every entry of `computeLPS` is the longest proper border of its prefix. -/
theorem computeLPS_correct (p : Str) :
    ∀ k, k < p.length → isMaxBorder p (k+1) ((computeLPS p).getD k 0) := by
  intro k hk
  have hm : 1 ≤ p.length := by omega
  unfold computeLPS
  refine (lpsAuxF_correct p (2 * p.length + 1) _ 1 0 (by simp) (le_refl 1) hm
    Nat.zero_lt_one ?_ (by simp [List.nil_suffix]) (fun l hl1 hl2 _ => by omega)
    (by omega)).2 k hk
  intro k2 hk2
  have hk20 : k2 = 0 := by omega
  subst hk20
  rw [replicate_getD]
  exact isMaxBorder_one p

/-! ## KMP search correctness -/

/-- Characters of an occurrence ending at position `e` read back from the
text. -/
theorem suffix_take_chars {t p : Str} {e : Nat} (he : e ≤ t.length) (h : p <:+ t.take e) :
    ∀ k, k < p.length → strGet t (e - p.length + k) = strGet p k := by
  obtain ⟨u, hu⟩ := h
  have hlen : u.length + p.length = e := by
    have h2 := congrArg List.length hu
    rw [List.length_append, List.length_take] at h2
    omega
  intro k hk
  have h1 : strGet t (e - p.length + k) = strGet (t.take e) (e - p.length + k) :=
    (strGet_take (by omega)).symm
  rw [h1, ← hu]
  have h3 : e - p.length = u.length := by omega
  rw [h3, strGet_append_right]

/-- The part of an occurrence lying before position `I` is a prefix of the
pattern ending the scanned text. -/
theorem occurrence_window {t p : Str} {e I : Nat} (he : e ≤ t.length) (h : p <:+ t.take e)
    (hIe : I ≤ e) (hsI : e - p.length ≤ I) :
    p.take (I - (e - p.length)) <:+ t.take I := by
  obtain ⟨u, hu⟩ := h
  have hlen : u.length + p.length = e := by
    have h2 := congrArg List.length hu
    rw [List.length_append, List.length_take] at h2
    omega
  have h1 : t.take I = u ++ p.take (I - u.length) := by
    have h2 : (t.take e).take I = t.take I := by
      rw [List.take_take, inf_eq_left.mpr hIe]
    rw [← h2, ← hu, List.take_append_eq_append_take, List.take_all_of_le (by omega)]
  have h3 : I - (e - p.length) = I - u.length := by omega
  rw [h3, h1]
  exact ⟨u, rfl⟩

/-- No occurrence is skipped by falling back from a mismatch at `(I, J)` to
the longest border `B` of the matched prefix: an occurrence starting between
the two resume points would be a longer border, or would contradict the
mismatch itself. -/
theorem kmp_no_skip {t p : Str} {I J B : Nat}
    (hJm : J < p.length)
    (hpart : p.take J <:+ t.take I)
    (hmis : strGet t I ≠ strGet p J)
    (hmax : isMaxBorder p J B)
    (hprev : ∀ e, e ≤ t.length → p <:+ t.take e → I + p.length ≤ e + J) :
    ∀ e, e ≤ t.length → p <:+ t.take e → I + p.length ≤ e + B := by
  intro e he hocc
  by_contra hcon
  push_neg at hcon
  have hme : p.length ≤ e := by
    have h2 := hocc.length_le
    rw [List.length_take] at h2
    omega
  have hprev' := hprev e he hocc
  have hsI : e - p.length < I := by omega
  have hcJ : I - (e - p.length) ≤ J := by omega
  by_cases hceJ : I - (e - p.length) = J
  · have hchar := suffix_take_chars he hocc J hJm
    have hIdx : e - p.length + J = I := by omega
    rw [hIdx] at hchar
    exact hmis hchar
  · have hcB : B < I - (e - p.length) := by omega
    have hwin := @occurrence_window t p e I he hocc (by omega) (by omega)
    have hsub : p.take (I - (e - p.length)) <:+ p.take J :=
      take_suffix_take_of_le hwin hpart (by omega) (by omega)
    have := hmax.2.2 (I - (e - p.length)) (by omega) hsub
    omega

/-- The KMP loop, carrying the partial-match and no-skipped-occurrence
invariants, returns true exactly when the pattern occurs in the text. -/
theorem kmpLoopF_iff (t p : Str) (lps : List Nat) (hm : 1 ≤ p.length)
    (hlps : ∀ J, 1 ≤ J → J < p.length → isMaxBorder p J (lps.getD (J-1) 0)) :
    ∀ (fuel i j : Nat),
      i ≤ t.length → j < p.length → j ≤ i →
      p.take j <:+ t.take i →
      (∀ e, e ≤ t.length → p <:+ t.take e → i + p.length ≤ e + j) →
      2 * (t.length - i) + j < fuel →
      (kmpLoopF t p lps i j fuel = true ↔ ∃ e, e ≤ t.length ∧ p <:+ t.take e) := by
  intro fuel
  induction fuel with
  | zero => intro i j _ _ _ _ _ hfuel; omega
  | succ fuel ih =>
    intro i j hin hjm hji hpart hskip hfuel
    by_cases hi : i < t.length
    · rw [kmpLoopF, if_pos hi]
      by_cases hc : strGet t i = strGet p j
      · rw [if_pos hc]
        have hext : p.take (j+1) <:+ t.take (i+1) :=
          (take_succ_suffix_iff hjm hi).mpr ⟨hc.symm, hpart⟩
        by_cases hjm1 : j + 1 = p.length
        · rw [if_pos hjm1]
          simp only [true_iff]
          refine ⟨i+1, by omega, ?_⟩
          have hp : p.take (j+1) = p := by rw [hjm1]; exact List.take_length p
          rwa [hp] at hext
        · rw [if_neg hjm1]
          have hjm' : j + 1 < p.length := by omega
          have hskip' : ∀ e, e ≤ t.length → p <:+ t.take e →
              (i+1) + p.length ≤ e + (j+1) := by
            intro e he hocc
            have := hskip e he hocc
            omega
          by_cases hinner : i + 1 < t.length ∧ strGet t (i+1) ≠ strGet p (j+1)
          · rw [if_pos hinner, if_pos (by omega : j + 1 ≠ 0)]
            obtain ⟨hin1, hin2⟩ := hinner
            have hmax : isMaxBorder p (j+1) (lps.getD (j+1-1) 0) :=
              hlps (j+1) (by omega) hjm'
            refine ih (i+1) (lps.getD (j+1-1) 0) (by omega)
              (by have := hmax.1; omega) (by have := hmax.1; omega)
              ?_ ?_ (by have := hmax.1; omega)
            · exact hmax.2.1.trans hext
            · exact kmp_no_skip hjm' hext hin2 hmax hskip'
          · rw [if_neg hinner]
            exact ih (i+1) (j+1) (by omega) hjm' (by omega) hext hskip' (by omega)
      · rw [if_neg hc]
        rw [if_neg (by omega : ¬ j = p.length)]
        have hcne : strGet t i ≠ strGet p j := hc
        rw [if_pos (⟨hi, hcne⟩ : i < t.length ∧ strGet t i ≠ strGet p j)]
        by_cases hj0 : j ≠ 0
        · rw [if_pos hj0]
          have hmax : isMaxBorder p j (lps.getD (j-1) 0) := hlps j (by omega) hjm
          refine ih i (lps.getD (j-1) 0) hin (by have := hmax.1; omega)
            (by have := hmax.1; omega) ?_ ?_ (by have := hmax.1; omega)
          · exact hmax.2.1.trans hpart
          · exact kmp_no_skip hjm hpart hcne hmax hskip
        · rw [if_neg hj0]
          have hj0' : j = 0 := by omega
          refine ih (i+1) j (by omega) hjm (by omega) ?_ ?_ (by omega)
          · subst hj0'
            simp [List.nil_suffix]
          · intro e he hocc
            have hold := hskip e he hocc
            subst hj0'
            by_contra hcon
            push_neg at hcon
            have hme : p.length ≤ e := by
              have h2 := hocc.length_le
              rw [List.length_take] at h2
              omega
            have heI : e = i + p.length := by omega
            have hchar := suffix_take_chars he hocc 0 (by omega)
            rw [heI] at hchar
            have hidx : i + p.length - p.length + 0 = i := by omega
            rw [hidx] at hchar
            exact hcne hchar
    · rw [kmpLoopF, if_neg hi]
      constructor
      · intro h; simp at h
      · rintro ⟨e, he, hocc⟩
        have := hskip e he hocc
        omega

/-- Occurrences ending inside some scanned prefix are exactly the
contiguous-substring occurrences. -/
theorem exists_suffix_take_iff (t p : Str) :
    (∃ e, e ≤ t.length ∧ p <:+ t.take e) ↔ p <:+: t := by
  constructor
  · rintro ⟨e, _, hocc⟩
    exact (hocc.isInfix).trans ( List.take_prefix e t).isInfix
  · rintro ⟨a, b, hab⟩
    refine ⟨a.length + p.length, ?_, ?_⟩
    · have : t.length = a.length + p.length + b.length := by
        rw [← hab]; simp; omega
      omega
    · rw [← hab,
        List.take_left' (by simp : (a ++ p).length = a.length + List.length p)]
      exact List.suffix_append a p

/-- `KMPMatch` decides contiguous-substring occurrence for every nonempty
pattern. -/
theorem KMPMatch_iff (t p : Str) (hm : 1 ≤ p.length) :
    KMPMatch t p = true ↔ p <:+: t := by
  unfold KMPMatch
  rw [kmpLoopF_iff t p (computeLPS p) hm ?_ (2 * t.length + 1) 0 0 (by omega) (by omega)
    (le_refl 0) (by simp [List.nil_suffix]) ?_ (by omega)]
  · exact exists_suffix_take_iff t p
  · intro J hJ1 hJm
    have h := computeLPS_correct p (J-1) (by omega)
    have heq : J - 1 + 1 = J := by omega
    rwa [heq] at h
  · intro e he hocc
    have h2 := hocc.length_le
    rw [List.length_take] at h2
    omega

/-! ## Claims about the matchers -/

/-- Claim C2 (amended): for every nonempty pattern the three matchers agree
on every text; the empty pattern is the one exception (see the
counterexample: KMP returns false on empty text and pattern while the other
two return true). -/
theorem claim_C2_matchers_agree (t p : Str) (h : p ≠ []) :
    bruteForceMatch t p = KMPMatch t p ∧ KMPMatch t p = rabinKarpMatch t p := by
  have hm : 1 ≤ p.length := by
    cases p with
    | nil => exact absurd rfl h
    | cons c cs => simp
  by_cases hocc : p <:+: t
  · rw [(bruteForceMatch_iff t p).mpr hocc, (KMPMatch_iff t p hm).mpr hocc,
      (rabinKarpMatch_iff t p).mpr hocc]
    exact ⟨rfl, rfl⟩
  · have h1 : bruteForceMatch t p = false := by
      rw [← Bool.not_eq_true, bruteForceMatch_iff]; exact hocc
    have h2 : KMPMatch t p = false := by
      rw [← Bool.not_eq_true, KMPMatch_iff t p hm]; exact hocc
    have h3 : rabinKarpMatch t p = false := by
      rw [← Bool.not_eq_true, rabinKarpMatch_iff]; exact hocc
    rw [h1, h2, h3]
    exact ⟨rfl, rfl⟩

/-- Counterexample to claim C2 as stated: on text = "" and pattern = "" the
brute-force and Rabin-Karp matchers return true but KMPMatch returns false. -/
theorem claim_C2_counterexample :
    bruteForceMatch [] [] = true ∧ rabinKarpMatch [] [] = true ∧
    KMPMatch [] [] = false := by
  refine ⟨by decide, by decide, by decide⟩

/-- Witness for claim C2 on the self-overlapping case text = "aaaa",
pattern = "aa". -/
theorem claim_C2_witness :
    bruteForceMatch ("aaaa".toList) ("aa".toList) = KMPMatch ("aaaa".toList) ("aa".toList) ∧
    KMPMatch ("aaaa".toList) ("aa".toList) = rabinKarpMatch ("aaaa".toList) ("aa".toList) :=
  claim_C2_matchers_agree ("aaaa".toList) ("aa".toList) (by decide)

/-- Claim C3 (amended): bruteForceMatch returns true exactly when the
pattern occurs as a contiguous substring, for every pair (pattern longer
than the text gives false, the empty pattern gives true); KMPMatch satisfies
the same contract for every nonempty pattern, and also returns false for
longer-than-text patterns, but on the empty pattern it returns false on
empty text instead of the defined true. -/
theorem claim_C3_substring_contract :
    (∀ t p : Str, bruteForceMatch t p = true ↔ p <:+: t) ∧
    (∀ t p : Str, p ≠ [] → (KMPMatch t p = true ↔ p <:+: t)) ∧
    (∀ t p : Str, t.length < p.length →
      bruteForceMatch t p = false ∧ KMPMatch t p = false) ∧
    (∀ t : Str, bruteForceMatch t [] = true) := by
  refine ⟨bruteForceMatch_iff, ?_, ?_, ?_⟩
  · intro t p hp
    refine KMPMatch_iff t p ?_
    cases p with
    | nil => exact absurd rfl hp
    | cons c cs => simp
  · intro t p hlen
    constructor
    · rw [← Bool.not_eq_true, bruteForceMatch_iff]
      intro hocc
      have := hocc.length_le
      omega
    · rw [← Bool.not_eq_true, KMPMatch_iff t p (by omega)]
      intro hocc
      have := hocc.length_le
      omega
  · intro t
    exact (bruteForceMatch_iff t []).mpr ⟨[], t, by simp⟩

/-- Counterexample to claim C3 as stated: the empty pattern occurs in the
empty text, but KMPMatch returns false there. -/
theorem claim_C3_counterexample :
    (([] : Str) <:+: ([] : Str)) ∧ KMPMatch [] [] = false := by
  refine ⟨by decide, by decide⟩

/-- Witness for claim C3 at text = "abcd", pattern = "bc". -/
theorem claim_C3_witness :
    (KMPMatch ("abcd".toList) ("bc".toList) = true ↔ ("bc".toList) <:+: ("abcd".toList)) :=
  claim_C3_substring_contract.2.1 ("abcd".toList) ("bc".toList) (by decide)
